import Mathlib

/-!
Shallow embedding of the helter88/rag-fastApi repository, covering the
document-manager service (`rag-document-manager-ms/app/services/document_service.py`)
and the query service (`rag-query-ms/app/services/rag_service.py`,
`rag-query-ms/app/services/graph_definition.py`), together with proofs about the
behaviour claimed by the specification.

The vector store (Chroma accessed through langchain-chroma) is modelled as a flat
list of records, each carrying an id, a page content and a string-valued metadata
map.  `add_documents` with an explicit id upserts (langchain-chroma uses
`collection.upsert`), `add_documents` without ids appends records under freshly
generated ids (uuid4), `get(ids=[i])` fetches by id, and `delete(where={k: v})`
removes every record whose metadata maps `k` to `v`.  Python strings are modelled
by Lean strings; `str.split`, `str.join`, `sorted` and slicing are modelled by
the explicit functions `pySplit`, `pyJoin`, `pySorted` and `pySlice` below, which
follow the Python semantics for the ways the code uses them (single-character
separator, lexicographic string order, character-count slicing).
-/

namespace RagFastApi

/-- The fixed sentinel id of the document index record
(`DocumentService.DOCUMENT_INDEX_ID`). -/
def DOCUMENT_INDEX_ID : String := "__DOCUMENT_INDEX__"

/-- A record stored in the vector store: id, page content and metadata
(the embedding vector is opaque and never inspected by the code under study,
so it is omitted). -/
structure Record where
  id : String
  page_content : String
  metadata : List (String × String)
deriving DecidableEq, Repr

/-- The vector store state: the collection of stored records. -/
abbrev Store := List Record

/-- `metadata.get(k)` on a Python dict modelled as an association list. -/
def lookupMeta (md : List (String × String)) (k : String) : Option String :=
  (md.find? (fun p => p.1 = k)).map (fun p => p.2)

/-- `vector_store.get(ids=[i])`: the record stored under id `i`, if any. -/
def storeGet (s : Store) (i : String) : Option Record :=
  s.find? (fun r => r.id = i)

/-- `vector_store.add_documents(documents=[r], ids=[r.id])`: langchain-chroma
upserts, replacing the record stored under that id or inserting it. -/
def upsertById (s : Store) (r : Record) : Store :=
  if s.any (fun x => x.id = r.id) then
    s.map (fun x => if x.id = r.id then r else x)
  else s ++ [r]

/-- `vector_store.delete(where={k: v})`: removes every record whose metadata
maps `k` to `v`; records lacking the key do not match the predicate. -/
def deleteWhere (s : Store) (k v : String) : Store :=
  s.filter (fun r => ¬ lookupMeta r.metadata k = some v)

/-- Python `s.split(c)` for a one-character separator, on the character list:
splitting the empty string yields `[[]]`, and adjacent separators yield empty
fields. -/
def splitChar (c : Char) : List Char → List (List Char)
  | [] => [[]]
  | x :: xs =>
    if x = c then [] :: splitChar c xs
    else
      match splitChar c xs with
      | [] => [[x]]
      | r :: rs => (x :: r) :: rs

/-- Python `filenames_str.split('|')`. -/
def pySplit (c : Char) (s : String) : List String :=
  (splitChar c s.data).map (fun l => String.mk l)

/-- Python `"|".join(l)`. -/
def pyJoin (c : Char) (l : List String) : String :=
  String.mk (List.intercalate [c] (l.map String.data))

/-- Lexicographic strictly-less comparison of character lists by code point,
the order Python uses on `str`.  (Structurally recursive so that proofs can
evaluate it; `lexLtb_iff` below proves it agrees with the mathematical
lexicographic order.) -/
def lexLtb : List Char → List Char → Bool
  | [], [] => false
  | [], _ :: _ => true
  | _ :: _, [] => false
  | a :: as, b :: bs =>
    if a < b then true
    else if b < a then false
    else lexLtb as bs

/-- Python `a <= b` on strings: not (b < a) in code-point lexicographic
order. -/
def pyLe (a b : String) : Bool := ! lexLtb b.data a.data

/-- Python `sorted(l)` on strings: ascending lexicographic order. -/
def pySorted (l : List String) : List String :=
  l.insertionSort (fun a b => pyLe a b = true)

/-- Python `s[:n]`: the first `n` characters of `s`. -/
def pySlice (s : String) (n : Nat) : String :=
  String.mk (s.data.take n)

/-- `DocumentService.get_all_document_names` (`document_service.py`, lines
22-49): reads the sentinel record; absent record or empty serialized value give
the empty list, otherwise the `'|'`-split names are returned sorted. -/
def get_all_document_names (s : Store) : List String :=
  match storeGet s DOCUMENT_INDEX_ID with
  | none => []
  | some r =>
    let filenames_str := (lookupMeta r.metadata "filenames").getD ""
    if filenames_str = "" then []
    else pySorted (pySplit '|' filenames_str)

/-- The index document written by `_update_document_index` and by the
index-update block of `delete_document_by_name`: fixed sentinel id, fixed page
content, and the serialized name list under the metadata key `filenames`. -/
def indexRecord (serialized : String) : Record :=
  { id := DOCUMENT_INDEX_ID
    page_content := "This is an index document. Do not delete."
    metadata := [("filenames", serialized)] }

/-- `DocumentService._update_document_index` (`document_service.py`, lines
51-75): re-reads the current names, filters the argument down to the names not
already present, returns without writing when none remain, and otherwise
rewrites the sentinel with `current ++ truly_new` joined by `'|'`. -/
def update_document_index (s : Store) (new_filenames : List String) : Store :=
  let current_filenames_list := get_all_document_names s
  let truly_new_files := new_filenames.filter (fun f => ¬ f ∈ current_filenames_list)
  if truly_new_files = [] then s
  else upsertById s (indexRecord (pyJoin '|' (current_filenames_list ++ truly_new_files)))

/-- The index-update block of `DocumentService.delete_document_by_name`
(`document_service.py`, lines 164-182): re-reads the current names; if the name
is present, removes its first occurrence (Python `list.remove`) and rewrites the
sentinel, otherwise performs no write. -/
def removeName (s : Store) (filename : String) : Store :=
  let updated_list := get_all_document_names s
  if filename ∈ updated_list then
    upsertById s (indexRecord (pyJoin '|' (updated_list.erase filename)))
  else s

/-- `DocumentService.delete_document_by_name` (`document_service.py`, lines
144-182): a name absent from the index raises HTTP 404 before any store
mutation; otherwise all chunks matching `original_filename == filename` are
deleted and the index is updated.  The error value carries the HTTP status and
the store at the moment of the raise. -/
def delete_document_by_name (s : Store) (filename : String) :
    Except (Nat × Store) Store :=
  if filename ∈ get_all_document_names s then
    .ok (removeName (deleteWhere s "original_filename" filename) filename)
  else .error (404, s)

/-- One uploaded file as seen by `process_and_store_files` after the opaque
loader/splitter ran: its filename and either the list of chunk contents the
splitter produced or a per-file processing failure. -/
structure FileInput where
  filename : String
  chunkResult : Except Unit (List String)

/-- A chunk after the stamping loop of `process_file_sync`: its text and the
`original_filename` metadata stamped onto it. -/
structure Chunk where
  page_content : String
  original_filename : String
deriving DecidableEq, Repr

/-- The stamping loop of `process_file_sync` (`document_service.py`, lines
100-102): every chunk receives the owning file's name as
`original_filename` metadata. -/
def stampChunks (fname : String) (contents : List String) : List Chunk :=
  contents.map fun c => { page_content := c, original_filename := fname }

/-- The per-file loop of `process_and_store_files` (`document_service.py`,
lines 82-118): left-to-right over the files, a file that chunks successfully
appends its stamped chunks to `all_chunks` and its name to
`processed_filenames`; a file that fails appends its name to `error_files`.
Returns `(all_chunks, error_files, processed_filenames)`. -/
def perFilePhase : List FileInput → List Chunk × List String × List String
  | [] => ([], [], [])
  | f :: fs =>
    let rest := perFilePhase fs
    match f.chunkResult with
    | .ok contents =>
      (stampChunks f.filename contents ++ rest.1, rest.2.1, f.filename :: rest.2.2)
    | .error _ => (rest.1, f.filename :: rest.2.1, rest.2.2)

/-- The batching of the write phase (`document_service.py`, lines 126-129):
`all_chunks` is cut into consecutive slices of at most 10 chunks
(`all_chunks[i:i+10]` for `i = 0, 10, 20, ...`).  Structured with a fuel
argument (any fuel at least the list length gives the slicing) so that the
definition is structurally recursive. -/
def mkBatchesFuel : Nat → List Chunk → List (List Chunk)
  | _, [] => []
  | 0, _ :: _ => []
  | fuel + 1, c :: cs => ((c :: cs).take 10) :: mkBatchesFuel fuel ((c :: cs).drop 10)

def mkBatches (l : List Chunk) : List (List Chunk) :=
  mkBatchesFuel l.length l

/-- The record written to the store for one chunk by
`vector_store.add_documents(documents=batch)`: a freshly generated id, the chunk
text, and the stamped metadata (`original_filename` and the ingestion
timestamp). -/
def chunkRecord (idStr fname now content : String) : Record :=
  { id := idStr
    page_content := content
    metadata := [("original_filename", fname), ("ingestion_timestamp_utc", now)] }

/-- The records appended for a list of chunks, drawing fresh ids from the
supply `ids` starting at position `n`. -/
def chunkRecords (ids : Nat → String) (now : String) : Nat → List Chunk → List Record
  | _, [] => []
  | n, c :: cs =>
    chunkRecord (ids n) c.original_filename now c.page_content
      :: chunkRecords ids now (n + 1) cs

/-- The batch-write loop of `process_and_store_files` (`document_service.py`,
lines 128-132): batches are written in order; a failing batch write
(`writeFails i = true` for the i-th batch) raises, leaving the store as written
so far, and no later batch is attempted.  `n` is the absolute position of the
next chunk in `all_chunks`, used to draw fresh ids. -/
def writeBatches (ids : Nat → String) (now : String) (writeFails : Nat → Bool) :
    Store → List (List Chunk) → Nat → Nat → Except Store Store
  | s, [], _, _ => .ok s
  | s, b :: bs, i, n =>
    if writeFails i then .error s
    else writeBatches ids now writeFails (s ++ chunkRecords ids now n b) bs (i + 1) (n + b.length)

/-- `DocumentService.process_and_store_files` (`document_service.py`, lines
77-142): per-file phase, early return `(0, error_files)` when no chunks were
produced, batch writes of size 10 (an exception aborts the call with HTTP 500,
leaving the batches written so far in the store and the index untouched), then
a single index update with the accumulated `processed_filenames`, then the
return `(len(all_chunks), error_files)`. -/
def process_and_store_files (s : Store) (files : List FileInput)
    (writeFails : Nat → Bool) (ids : Nat → String) (now : String) :
    Except (Nat × Store) (Store × Nat × List String) :=
  let r := perFilePhase files
  let all_chunks := r.1
  let error_files := r.2.1
  let processed_filenames := r.2.2
  if all_chunks = [] then .ok (s, 0, error_files)
  else
    match writeBatches ids now writeFails s (mkBatches all_chunks) 0 0 with
    | .error s1 => .error (500, s1)
    | .ok s1 =>
      let s2 := if processed_filenames = [] then s1
                else update_document_index s1 processed_filenames
      .ok (s2, all_chunks.length, error_files)

/-! ### Query service (`rag-query-ms`)

The retriever and the LLM are external oracles; they are modelled as functions
that either return a value or fail (an exception).  A chat prompt after template
substitution is a system/human message pair; the LLM is invoked either through
`prompt | llm | StrOutputParser()` (free text) or through
`llm.with_structured_output(RelevanceDecision)` (a boolean decision). -/

/-- A document returned by the retriever, with its metadata projected to the
single key the query service reads (`original_filename`). -/
structure Doc where
  page_content : String
  original_filename : Option String
deriving DecidableEq, Repr

/-- A chat prompt after `ChatPromptTemplate` substitution: the system message
and the human message. -/
structure Prompt where
  system : String
  human : String
deriving DecidableEq, Repr

/-- The external oracles of the query service: the retriever, the free-text
LLM chain, and the structured-output relevance judge. -/
structure LLMEnv where
  retrieve : String → Except Unit (List Doc)
  complete : Prompt → Except Unit String
  judge : Prompt → Except Unit Bool

/-- The `GraphState` TypedDict of `graph_definition.py`: keys not yet produced
by a node are modelled as `none`. -/
structure GraphState where
  request_id : String
  question : String
  generation : Option String
  documents : Option (List Doc)

/-- `"\n\n".join(doc.page_content for doc in documents)`. -/
def contextOf (documents : List Doc) : String :=
  String.intercalate "\n\n" (documents.map (fun d => d.page_content))

/-- The prompt built by `RAGGraphNodes.generate_answer`
(`graph_definition.py`, lines 46-50). -/
def generatePrompt (context question : String) : Prompt :=
  { system := "You are a helpful AI assistant. Answer the user's question based solely on the context provided below. If the context does not contain an answer, state that and do not try to make one up.\n\nContext:\n---\n" ++ context ++ "\n---"
    human := "Question: " ++ question }

/-- The prompt built by `RAGGraphNodes.check_relevance`
(`graph_definition.py`, lines 73-77). -/
def relevancePrompt (context question generation : String) : Prompt :=
  { system := "You are an AI judge. Your task is to evaluate whether the generated answer is fully based on the provided context. Respond with a boolean value indicating relevance."
    human := "Context:\n---\n" ++ context ++ "\n---\n\nQuestion: " ++ question ++ "\n\nGenerated Answer: " ++ generation }

/-- The prompt built by `RAGGraphNodes.rewrite_answer`
(`graph_definition.py`, lines 102-105). -/
def rewritePrompt (question : String) : Prompt :=
  { system := "You are a helpful assistant. Answer the user's question. Inform them that sufficient information was not found in the provided documents to give a precise answer, but you will attempt to answer based on your general knowledge."
    human := "Question: " ++ question }

/-- `RAGGraphNodes.retrieve_documents`: calls the retriever with the question
and stores the result under `documents`. -/
def retrieve_documents (env : LLMEnv) (state : GraphState) : Except Unit GraphState :=
  match env.retrieve state.question with
  | .error e => .error e
  | .ok documents => .ok { state with documents := some documents }

/-- `RAGGraphNodes.generate_answer`: joins the retrieved contents into a
context, invokes the generation chain, and stores the candidate answer.
Reading `state["documents"]` before the retrieve node ran would raise. -/
def generate_answer (env : LLMEnv) (state : GraphState) : Except Unit GraphState :=
  match state.documents with
  | none => .error ()
  | some documents =>
    match env.complete (generatePrompt (contextOf documents) state.question) with
    | .error e => .error e
    | .ok generation => .ok { state with generation := some generation }

/-- `RAGGraphNodes.check_relevance`: asks the structured-output judge whether
the candidate answer is grounded in the context, and maps the boolean decision
to the edge labels `"useful"` / `"not_useful"`. -/
def check_relevance (env : LLMEnv) (state : GraphState) : Except Unit String :=
  match state.documents, state.generation with
  | some documents, some generation =>
    match env.judge (relevancePrompt (contextOf documents) state.question generation) with
    | .error e => .error e
    | .ok is_relevant => .ok (if is_relevant then "useful" else "not_useful")
  | _, _ => .error ()

/-- `RAGGraphNodes.rewrite_answer`: invokes the generation chain with the
fallback-disclosing prompt and replaces the candidate answer. -/
def rewrite_answer (env : LLMEnv) (state : GraphState) : Except Unit GraphState :=
  match env.complete (rewritePrompt state.question) with
  | .error e => .error e
  | .ok generation => .ok { state with generation := some generation }

/-- The compiled workflow of `RAGService._build_rag_graph`
(`rag_service.py`, lines 18-39): entry point `retrieve`, edge
`retrieve → generate`, conditional edges from `generate` on the
`check_relevance` decision (`"useful" → END`, `"not_useful" → rewrite`), and
edge `rewrite → END`.  Any exception raised in a node propagates. -/
def runGraph (env : LLMEnv) (question request_id : String) : Except Unit GraphState :=
  let state0 : GraphState :=
    { request_id := request_id, question := question, generation := none, documents := none }
  match retrieve_documents env state0 with
  | .error e => .error e
  | .ok s1 =>
    match generate_answer env s1 with
    | .error e => .error e
    | .ok s2 =>
      match check_relevance env s2 with
      | .error e => .error e
      | .ok decision =>
        if decision = "useful" then .ok s2
        else
          match rewrite_answer env s2 with
          | .error e => .error e
          | .ok s3 => .ok s3

/-- One entry of the `sources` list of the response. -/
structure SourceEntry where
  filename : String
  page_content_snippet : String
deriving DecidableEq, Repr

/-- The response built by `RAGService.get_rag_response`. -/
structure RagResponse where
  answer : String
  sources : List SourceEntry
  error : Option String
deriving DecidableEq, Repr

/-- The per-document source entry of `get_rag_response`
(`rag_service.py`, lines 57-60): the `original_filename` metadata (defaulting
to `"Unknown source"`) and the first 200 characters of the content followed by
`"..."`. -/
def mkSource (d : Doc) : SourceEntry :=
  { filename := d.original_filename.getD "Unknown source"
    page_content_snippet := pySlice d.page_content 200 ++ "..." }

/-- `RAGService.get_rag_response` (`rag_service.py`, lines 41-72): runs the
graph; on success builds the answer (defaulting if the `generation` key is
missing) and the source entries from the final state; any exception is caught
and converted into the fixed sentinel failure response. -/
def get_rag_response (env : LLMEnv) (question request_id : String) : RagResponse :=
  match runGraph env question request_id with
  | .ok final_state =>
    { answer := final_state.generation.getD "Sorry, an error occurred while processing your request."
      sources := (final_state.documents.getD []).map mkSource
      error := none }
  | .error _ =>
    { answer := "Sorry, an internal error occurred. Please try again later."
      sources := []
      error := some "An internal error prevented the request from completing." }

/-! ### Helper lemmas: the serialization round-trip -/

/-- A filename the serialization format can represent faithfully: nonempty and
free of the reserved `'|'` delimiter (the spec reserves the delimiter so that
it cannot occur in filenames). -/
def validName (n : String) : Prop := n ≠ "" ∧ ¬ '|' ∈ n.data

instance (n : String) : Decidable (validName n) := by
  unfold validName; infer_instance

theorem intercalate_singleton {α : Type} (sep a : List α) :
    List.intercalate sep [a] = a := by
  simp [List.intercalate]

theorem intercalate_cons_cons {α : Type} (sep a b : List α) (L : List (List α)) :
    List.intercalate sep (a :: b :: L) = a ++ sep ++ List.intercalate sep (b :: L) := by
  simp [List.intercalate, List.intersperse]

theorem splitChar_ne_nil (c : Char) (l : List Char) : splitChar c l ≠ [] := by
  induction l with
  | nil => simp [splitChar]
  | cons x xs ih =>
    simp only [splitChar]
    by_cases hx : x = c
    · simp [hx]
    · simp only [hx, if_false]
      cases h : splitChar c xs with
      | nil => simp
      | cons r rs => simp

theorem splitChar_cons_ne (c x : Char) (xs : List Char) (hx : ¬ x = c) :
    splitChar c (x :: xs) =
      (x :: (splitChar c xs).headI) :: (splitChar c xs).tail := by
  cases h : splitChar c xs with
  | nil => exact absurd h (splitChar_ne_nil c xs)
  | cons r rs => simp [splitChar, hx, h]

theorem splitChar_of_not_mem {c : Char} {a : List Char} (h : ¬ c ∈ a) :
    splitChar c a = [a] := by
  induction a with
  | nil => simp [splitChar]
  | cons x xs ih =>
    simp only [List.mem_cons, not_or] at h
    have hx : ¬ x = c := fun hxc => h.1 (by simp [hxc])
    rw [splitChar_cons_ne c x xs hx, ih h.2]
    simp

theorem splitChar_append_cons {c : Char} {a : List Char} (t : List Char)
    (h : ¬ c ∈ a) :
    splitChar c (a ++ c :: t) = a :: splitChar c t := by
  induction a with
  | nil => simp [splitChar]
  | cons x xs ih =>
    simp only [List.mem_cons, not_or] at h
    have hx : ¬ x = c := fun hxc => h.1 (by simp [hxc])
    rw [List.cons_append, splitChar_cons_ne c x _ hx, ih h.2]
    simp

theorem splitChar_intercalate {c : Char} {L : List (List Char)} (hne : L ≠ [])
    (h : ∀ a ∈ L, ¬ c ∈ a) :
    splitChar c (List.intercalate [c] L) = L := by
  induction L with
  | nil => exact absurd rfl hne
  | cons a L ih =>
    cases L with
    | nil =>
      rw [intercalate_singleton]
      exact splitChar_of_not_mem (h a (by simp))
    | cons b L =>
      rw [intercalate_cons_cons]
      rw [List.append_assoc, List.singleton_append]
      rw [splitChar_append_cons _ (h a (by simp))]
      rw [ih (by simp) (fun x hx => h x (by simp [hx]))]

theorem pySplit_pyJoin {l : List String} (hne : l ≠ [])
    (h : ∀ n ∈ l, ¬ '|' ∈ n.data) :
    pySplit '|' (pyJoin '|' l) = l := by
  unfold pySplit pyJoin
  have hmapne : l.map String.data ≠ [] := by
    simpa using hne
  rw [splitChar_intercalate hmapne (by
    intro a ha
    obtain ⟨n, hn, rfl⟩ := List.mem_map.mp ha
    exact h n hn)]
  rw [List.map_map]
  have hid : (fun l => String.mk l) ∘ String.data = id := by
    funext s; rfl
  rw [hid, List.map_id]

theorem pyJoin_ne_empty {l : List String} (hne : l ≠ [])
    (h : ∀ n ∈ l, n ≠ "") : pyJoin '|' l ≠ "" := by
  unfold pyJoin
  intro hcontra
  have hdata : List.intercalate ['|'] (l.map String.data) = [] := by
    have hc := congrArg String.data hcontra
    simpa using hc
  cases l with
  | nil => exact hne rfl
  | cons a l =>
    cases l with
    | nil =>
      rw [List.map_cons, List.map_nil, intercalate_singleton] at hdata
      exact h a (by simp) (by cases a; simp_all)
    | cons b l =>
      rw [List.map_cons, List.map_cons, intercalate_cons_cons] at hdata
      simp at hdata

/-! ### Helper lemmas: reading the store -/

theorem find?_filter_of_find? {α : Type} {l : List α} {q p : α → Bool} {r : α}
    (hfind : l.find? q = some r) (hp : p r = true) :
    (l.filter p).find? q = some r := by
  induction l with
  | nil => simp at hfind
  | cons x xs ih =>
    by_cases hq : q x
    · have hr : x = r := by
        have hx := hfind
        rw [List.find?_cons_of_pos _ hq] at hx
        exact Option.some.inj hx
      subst hr
      rw [List.filter_cons_of_pos hp]
      exact List.find?_cons_of_pos _ hq
    · have hfind' : xs.find? q = some r := by
        have hx := hfind
        rwa [List.find?_cons_of_neg _ (by simpa using hq)] at hx
      by_cases hpx : p x
      · rw [List.filter_cons_of_pos hpx, List.find?_cons_of_neg _ (by simpa using hq)]
        exact ih hfind'
      · rw [List.filter_cons_of_neg (by simpa using hpx)]
        exact ih hfind'

theorem find?_filter_of_none {α : Type} {l : List α} {q p : α → Bool}
    (hfind : l.find? q = none) : (l.filter p).find? q = none := by
  rw [List.find?_eq_none] at hfind ⊢
  intro x hx
  exact hfind x (List.mem_of_mem_filter hx)

theorem find?_map_upsert_of_any {s : Store} {r : Record}
    (hany : s.any (fun x => x.id = r.id) = true) :
    (s.map (fun x => if x.id = r.id then r else x)).find?
      (fun x => x.id = r.id) = some r := by
  induction s with
  | nil => simp at hany
  | cons y ys ih =>
    by_cases hy : y.id = r.id
    · simp [List.find?_cons, hy]
    · rw [List.map_cons, if_neg hy,
        List.find?_cons_of_neg _ (by simpa using hy)]
      apply ih
      rcases List.any_eq_true.mp hany with ⟨z, hz, hzid⟩
      rcases List.mem_cons.mp hz with hzy | hzys
      · exact absurd (by simpa [hzy] using hzid) hy
      · exact List.any_eq_true.mpr ⟨z, hzys, hzid⟩

theorem find?_append_of_not_any {s : Store} {r : Record}
    (hany : ¬ s.any (fun x => x.id = r.id) = true) :
    (s ++ [r]).find? (fun x => x.id = r.id) = some r := by
  induction s with
  | nil => simp [List.find?]
  | cons y ys ih =>
    have hy : ¬ (y.id = r.id) := by
      intro hcontra
      exact hany (List.any_eq_true.mpr ⟨y, by simp, by simpa using hcontra⟩)
    rw [List.cons_append, List.find?_cons_of_neg _ (by simpa using hy)]
    apply ih
    intro hcontra
    rcases List.any_eq_true.mp hcontra with ⟨z, hz, hzid⟩
    exact hany (List.any_eq_true.mpr ⟨z, by simp [hz], hzid⟩)

theorem storeGet_upsertById_self (s : Store) (r : Record) :
    storeGet (upsertById s r) r.id = some r := by
  unfold upsertById storeGet
  by_cases hany : s.any (fun x => x.id = r.id) = true
  · rw [if_pos hany]
    exact find?_map_upsert_of_any hany
  · rw [if_neg hany]
    exact find?_append_of_not_any hany

/-! ### The comparison agrees with the lexicographic order on strings -/

theorem lexLtb_iff (l₁ l₂ : List Char) :
    lexLtb l₁ l₂ = true ↔ List.Lex (fun a b : Char => a < b) l₁ l₂ := by
  induction l₁ generalizing l₂ with
  | nil =>
    cases l₂ with
    | nil => simp [lexLtb]
    | cons b bs => simp [lexLtb, List.Lex.nil]
  | cons a as ih =>
    cases l₂ with
    | nil =>
      simp only [lexLtb]
      exact iff_of_false (by simp) (List.Lex.not_nil_right _ _)
    | cons b bs =>
      rcases lt_trichotomy a b with hab | heq | hba
      · refine iff_of_true ?_ (List.Lex.rel hab)
        simp [lexLtb, hab]
      · subst heq
        rw [show lexLtb (a :: as) (a :: bs) = lexLtb as bs by
          simp [lexLtb, lt_irrefl]]
        rw [ih bs]
        exact (List.Lex.cons_iff).symm
      · refine iff_of_false ?_ ?_
        · simp [lexLtb, hba, not_lt_of_lt hba]
        · intro h
          cases h with
          | cons h' => exact lt_irrefl a hba
          | rel h' => exact lt_asymm hba h'

theorem pyLe_iff (a b : String) : pyLe a b = true ↔ a ≤ b := by
  unfold pyLe
  rw [Bool.not_eq_true']
  rw [show a ≤ b ↔ ¬ b < a from (not_lt).symm]
  constructor
  · intro h hcontra
    have hlex : List.Lex (fun a b : Char => a < b) b.data a.data :=
      String.lt_iff_toList_lt.mp hcontra
    rw [← lexLtb_iff] at hlex
    rw [h] at hlex
    cases hlex
  · intro h
    cases hval : lexLtb b.data a.data with
    | false => rfl
    | true =>
      exact absurd (String.lt_iff_toList_lt.mpr ((lexLtb_iff b.data a.data).mp hval)) h

instance : IsTrans String (fun a b => pyLe a b = true) :=
  ⟨fun a b c hab hbc =>
    (pyLe_iff a c).mpr (le_trans ((pyLe_iff a b).mp hab) ((pyLe_iff b c).mp hbc))⟩

instance : IsAntisymm String (fun a b => pyLe a b = true) :=
  ⟨fun a b hab hba =>
    le_antisymm ((pyLe_iff a b).mp hab) ((pyLe_iff b a).mp hba)⟩

instance : IsTotal String (fun a b => pyLe a b = true) :=
  ⟨fun a b => (le_total a b).imp (pyLe_iff a b).mpr (pyLe_iff b a).mpr⟩

theorem sorted_le_of_sorted_pyLe {l : List String}
    (h : List.Sorted (fun a b => pyLe a b = true) l) :
    List.Sorted (fun a b : String => a ≤ b) l :=
  h.imp (fun hab => (pyLe_iff _ _).mp hab)

/-! ### Helper lemmas: sortedness and the names read back from the index -/

theorem pySorted_perm (l : List String) : List.Perm (pySorted l) l :=
  List.perm_insertionSort _ l

theorem pySorted_sorted (l : List String) :
    List.Sorted (fun a b : String => pyLe a b = true) (pySorted l) :=
  List.sorted_insertionSort _ l

theorem pySorted_eq_of_sorted {l : List String}
    (h : List.Sorted (fun a b : String => pyLe a b = true) l) : pySorted l = l :=
  List.eq_of_perm_of_sorted (pySorted_perm l) (pySorted_sorted l) h

theorem pySorted_eq_of_perm {l₁ l₂ : List String} (h : List.Perm l₁ l₂) :
    pySorted l₁ = pySorted l₂ :=
  List.eq_of_perm_of_sorted ((pySorted_perm l₁).trans (h.trans (pySorted_perm l₂).symm))
    (pySorted_sorted l₁) (pySorted_sorted l₂)

theorem names_sorted (s : Store) :
    List.Sorted (fun a b : String => pyLe a b = true) (get_all_document_names s) := by
  unfold get_all_document_names
  cases storeGet s DOCUMENT_INDEX_ID with
  | none => simp
  | some r =>
    by_cases h : (lookupMeta r.metadata "filenames").getD "" = ""
    · simp [h]
    · simp only [h, if_false]
      exact pySorted_sorted _

theorem names_of_storeGet_some {s : Store} {r : Record}
    (h : storeGet s DOCUMENT_INDEX_ID = some r) :
    get_all_document_names s =
      if (lookupMeta r.metadata "filenames").getD "" = "" then []
      else pySorted (pySplit '|' ((lookupMeta r.metadata "filenames").getD "")) := by
  unfold get_all_document_names
  rw [h]

theorem names_of_storeGet_none {s : Store}
    (h : storeGet s DOCUMENT_INDEX_ID = none) :
    get_all_document_names s = [] := by
  unfold get_all_document_names
  rw [h]

/-- Reading the index back after the sentinel was rewritten with the
serialization of a list of representable names yields that list, sorted. -/
theorem names_upsert_index {l : List String} (s : Store)
    (hv : ∀ n ∈ l, validName n) :
    get_all_document_names (upsertById s (indexRecord (pyJoin '|' l)))
      = pySorted l := by
  have hget := storeGet_upsertById_self s (indexRecord (pyJoin '|' l))
  rw [names_of_storeGet_some hget]
  have hlook : (lookupMeta (indexRecord (pyJoin '|' l)).metadata "filenames").getD ""
      = pyJoin '|' l := rfl
  rw [hlook]
  cases hl : l with
  | nil => simp [pyJoin, pySorted, List.intercalate]
  | cons a t =>
    have hne : l ≠ [] := by simp [hl]
    have hjoin : pyJoin '|' l ≠ "" :=
      pyJoin_ne_empty hne (fun n hn => (hv n hn).1)
    rw [← hl]
    rw [if_neg hjoin]
    rw [pySplit_pyJoin hne (fun n hn => (hv n hn).2)]

theorem storeGet_append_of_ne {ts : Store} (s : Store) {i : String}
    (hids : ∀ r' ∈ ts, ¬ r'.id = i) :
    storeGet (s ++ ts) i = storeGet s i := by
  unfold storeGet
  induction s with
  | nil =>
    simp only [List.nil_append, List.find?_nil]
    rw [List.find?_eq_none]
    intro x hx
    simpa using hids x hx
  | cons y ys ih =>
    by_cases hy : y.id = i
    · simp [List.find?_cons, hy]
    · rw [List.cons_append, List.find?_cons_of_neg _ (by simpa using hy),
        List.find?_cons_of_neg _ (by simpa using hy)]
      exact ih

theorem names_append_of_ne {ts : Store} (s : Store)
    (hids : ∀ r' ∈ ts, ¬ r'.id = DOCUMENT_INDEX_ID) :
    get_all_document_names (s ++ ts) = get_all_document_names s := by
  unfold get_all_document_names
  rw [storeGet_append_of_ne s hids]

/-- A store whose records with the sentinel id never carry the
`original_filename` metadata key (true of every index record the service
writes). -/
def sentinelClean (s : Store) : Prop :=
  ∀ r ∈ s, r.id = DOCUMENT_INDEX_ID →
    lookupMeta r.metadata "original_filename" = none

theorem names_deleteWhere {s : Store} (v : String) (hclean : sentinelClean s) :
    get_all_document_names (deleteWhere s "original_filename" v)
      = get_all_document_names s := by
  unfold get_all_document_names deleteWhere
  cases hget : storeGet s DOCUMENT_INDEX_ID with
  | none =>
    unfold storeGet at hget ⊢
    rw [find?_filter_of_none hget]
  | some r =>
    have hmem : r ∈ s := List.mem_of_find?_eq_some hget
    have hid : r.id = DOCUMENT_INDEX_ID := by
      have hp := List.find?_some hget
      simpa using hp
    have hnone : lookupMeta r.metadata "original_filename" = none :=
      hclean r hmem hid
    unfold storeGet at hget ⊢
    rw [find?_filter_of_find? hget (by simp [hnone])]

/-! ### Helper lemmas: effect of the index mutations on the name list -/

theorem names_update_document_index {s : Store} {new_filenames : List String}
    (hvcur : ∀ n ∈ get_all_document_names s, validName n)
    (hvnew : ∀ n ∈ new_filenames, validName n) :
    get_all_document_names (update_document_index s new_filenames)
      = pySorted (get_all_document_names s
          ++ new_filenames.filter (fun f => ¬ f ∈ get_all_document_names s)) := by
  simp only [update_document_index]
  by_cases hempty :
      new_filenames.filter (fun f => ¬ f ∈ get_all_document_names s) = []
  · rw [if_pos hempty, hempty, List.append_nil,
      pySorted_eq_of_sorted (names_sorted s)]
  · rw [if_neg hempty]
    apply names_upsert_index
    intro n hn
    rcases List.mem_append.mp hn with hcur | hnew
    · exact hvcur n hcur
    · exact hvnew n (List.mem_of_mem_filter hnew)

theorem names_removeName {s : Store} {f : String}
    (hvcur : ∀ n ∈ get_all_document_names s, validName n) :
    get_all_document_names (removeName s f)
      = pySorted ((get_all_document_names s).erase f) := by
  simp only [removeName]
  by_cases hmem : f ∈ get_all_document_names s
  · rw [if_pos hmem]
    exact names_upsert_index s (fun n hn => hvcur n (List.mem_of_mem_erase hn))
  · rw [if_neg hmem, List.erase_of_not_mem hmem]
    exact (pySorted_eq_of_sorted (names_sorted s)).symm

/-! ### Helper lemmas: the set of filenames owning at least one chunk -/

/-- The set of `original_filename` metadata values carried by at least one
record of the store. -/
def chunkNames (s : Store) : Finset String :=
  (s.filterMap (fun r => lookupMeta r.metadata "original_filename")).toFinset

theorem chunkNames_append (s ts : Store) :
    chunkNames (s ++ ts) = chunkNames s ∪ chunkNames ts := by
  simp [chunkNames, List.filterMap_append]

theorem filterMap_filter_ne (s : Store) (v : String) :
    (s.filter (fun r => ¬ lookupMeta r.metadata "original_filename" = some v)).filterMap
        (fun r => lookupMeta r.metadata "original_filename")
      = (s.filterMap (fun r => lookupMeta r.metadata "original_filename")).filter
          (fun x => ¬ x = v) := by
  induction s with
  | nil => simp
  | cons r rest ih =>
    cases h : lookupMeta r.metadata "original_filename" with
    | none =>
      rw [List.filter_cons_of_pos (by simp [h])]
      simp only [List.filterMap_cons, h]
      exact ih
    | some x =>
      by_cases hx : x = v
      · subst hx
        rw [List.filter_cons_of_neg (by simp [h])]
        simp only [List.filterMap_cons, h]
        rw [List.filter_cons_of_neg (by simp)]
        exact ih
      · rw [List.filter_cons_of_pos (by simp [h, hx])]
        simp only [List.filterMap_cons, h]
        rw [List.filter_cons_of_pos (by simpa using hx)]
        rw [ih]

theorem toFinset_filter_ne (l : List String) (v : String) :
    (l.filter (fun x => ¬ x = v)).toFinset = l.toFinset.erase v := by
  ext a
  simp only [List.mem_toFinset, List.mem_filter, Finset.mem_erase,
    decide_not, Bool.not_eq_eq_eq_not, Bool.not_true, decide_eq_false_iff_not]
  tauto

theorem chunkNames_deleteWhere (s : Store) (v : String) :
    chunkNames (deleteWhere s "original_filename" v) = (chunkNames s).erase v := by
  unfold chunkNames deleteWhere
  rw [filterMap_filter_ne, toFinset_filter_ne]

theorem filterMap_map_upsert {r : Record} (hid : r.id = DOCUMENT_INDEX_ID)
    (hnone : lookupMeta r.metadata "original_filename" = none) :
    ∀ ys : Store, sentinelClean ys →
    List.filterMap (fun x => lookupMeta x.metadata "original_filename")
        (ys.map (fun x => if x.id = r.id then r else x))
      = List.filterMap (fun x => lookupMeta x.metadata "original_filename") ys := by
  intro ys
  induction ys with
  | nil => intro _; simp
  | cons y ys ih =>
    intro hclean
    have hcleany : sentinelClean ys := fun z hz => hclean z (by simp [hz])
    by_cases hy : y.id = r.id
    · have hynone : lookupMeta y.metadata "original_filename" = none :=
        hclean y (by simp) (by rw [hy, hid])
      rw [List.map_cons, if_pos hy]
      simp only [List.filterMap_cons, hnone, hynone]
      exact ih hcleany
    · rw [List.map_cons, if_neg hy]
      cases h : lookupMeta y.metadata "original_filename" with
      | none =>
        simp only [List.filterMap_cons, h]
        exact ih hcleany
      | some x =>
        simp only [List.filterMap_cons, h]
        rw [ih hcleany]

theorem chunkNames_upsert_index {s : Store} {r : Record}
    (hclean : sentinelClean s) (hid : r.id = DOCUMENT_INDEX_ID)
    (hnone : lookupMeta r.metadata "original_filename" = none) :
    chunkNames (upsertById s r) = chunkNames s := by
  unfold chunkNames upsertById
  by_cases hany : s.any (fun x => x.id = r.id) = true
  · rw [if_pos hany]
    rw [filterMap_map_upsert hid hnone s hclean]
  · rw [if_neg hany]
    rw [List.filterMap_append]
    simp [hnone]

/-! ### Helper lemmas: preservation of sentinel cleanliness -/

theorem sentinelClean_append {s ts : Store} (hclean : sentinelClean s)
    (hids : ∀ r ∈ ts, ¬ r.id = DOCUMENT_INDEX_ID) :
    sentinelClean (s ++ ts) := by
  intro r hr hid
  rcases List.mem_append.mp hr with hs | hts
  · exact hclean r hs hid
  · exact absurd hid (hids r hts)

theorem sentinelClean_deleteWhere {s : Store} (k v : String)
    (hclean : sentinelClean s) : sentinelClean (deleteWhere s k v) :=
  fun r hr hid => hclean r (List.mem_of_mem_filter hr) hid

theorem sentinelClean_upsert_index {s : Store} (str : String)
    (hclean : sentinelClean s) :
    sentinelClean (upsertById s (indexRecord str)) := by
  intro r hr hid
  unfold upsertById at hr
  by_cases hany : s.any (fun x => x.id = (indexRecord str).id) = true
  · rw [if_pos hany] at hr
    rcases List.mem_map.mp hr with ⟨x, hx, hxr⟩
    by_cases hxid : x.id = (indexRecord str).id
    · rw [if_pos hxid] at hxr
      rw [← hxr]
      rfl
    · rw [if_neg hxid] at hxr
      exact hclean r (hxr ▸ hx) hid
  · rw [if_neg hany] at hr
    rcases List.mem_append.mp hr with hs | hnew
    · exact hclean r hs hid
    · rw [List.mem_singleton.mp hnew]
      rfl

/-! ### Small consequences used by several claims -/

theorem pySplit_empty (c : Char) : pySplit c "" = [""] := rfl

theorem splitChar_eq_nil_iff {c : Char} {l : List Char} :
    splitChar c l = [[]] ↔ l = [] := by
  constructor
  · intro h
    cases l with
    | nil => rfl
    | cons x xs =>
      by_cases hx : x = c
      · rw [show splitChar c (x :: xs) = [] :: splitChar c xs by
          simp [splitChar, hx]] at h
        have hnil : splitChar c xs = [] := by injection h
        exact absurd hnil (splitChar_ne_nil c xs)
      · rw [splitChar_cons_ne c x xs hx] at h
        injection h with h1 h2
        simp at h1
  · intro h
    subst h
    rfl

theorem pySplit_eq_singleton_empty {c : Char} {s : String}
    (h : pySplit c s = [""]) : s = "" := by
  unfold pySplit at h
  have hchars : splitChar c s.data = [[]] := by
    cases hsc : splitChar c s.data with
    | nil => exact absurd hsc (splitChar_ne_nil c s.data)
    | cons a t =>
      rw [hsc, List.map_cons] at h
      injection h with h1 h2
      have ha : a = [] := congrArg String.data h1
      have ht : t = [] := by
        cases t with
        | nil => rfl
        | cons b u => simp at h2
      rw [ha, ht]
  have hdata : s.data = [] := splitChar_eq_nil_iff.mp hchars
  cases s
  simp_all

theorem perm_toFinset_eq {l₁ l₂ : List String} (h : List.Perm l₁ l₂) :
    l₁.toFinset = l₂.toFinset := by
  ext a
  simp only [List.mem_toFinset]
  exact h.mem_iff

theorem removeName_of_not_mem {s : Store} {filename : String}
    (h : ¬ filename ∈ get_all_document_names s) : removeName s filename = s := by
  simp only [removeName]
  rw [if_neg h]

/-! ### The claims about the document-manager service -/

/-- **C4**: `listNames` (`get_all_document_names`) is a pure function of the
stored state: an absent sentinel record yields the empty sequence; an empty
serialized value yields the empty sequence; otherwise the output is a
lexicographically sorted permutation of the delimiter-split names, so two
stores holding the same name multiset in any insertion order list
identically. -/
theorem claim_C4_listNames (s s₂ : Store) :
    (storeGet s DOCUMENT_INDEX_ID = none → get_all_document_names s = []) ∧
    (∀ r, storeGet s DOCUMENT_INDEX_ID = some r →
      (lookupMeta r.metadata "filenames").getD "" = "" →
      get_all_document_names s = []) ∧
    (∀ r str, storeGet s DOCUMENT_INDEX_ID = some r →
      lookupMeta r.metadata "filenames" = some str → ¬ str = "" →
      List.Perm (get_all_document_names s) (pySplit '|' str) ∧
      List.Sorted (fun a b : String => a ≤ b) (get_all_document_names s)) ∧
    (∀ r r₂ str str₂, storeGet s DOCUMENT_INDEX_ID = some r →
      storeGet s₂ DOCUMENT_INDEX_ID = some r₂ →
      lookupMeta r.metadata "filenames" = some str →
      lookupMeta r₂.metadata "filenames" = some str₂ →
      List.Perm (pySplit '|' str) (pySplit '|' str₂) →
      get_all_document_names s = get_all_document_names s₂) := by
  refine ⟨fun h => names_of_storeGet_none h, ?_, ?_, ?_⟩
  · intro r hget hempty
    rw [names_of_storeGet_some hget, if_pos hempty]
  · intro r str hget hstr hne
    rw [names_of_storeGet_some hget, hstr]
    simp only [Option.getD_some, if_neg hne]
    exact ⟨pySorted_perm _, sorted_le_of_sorted_pyLe (pySorted_sorted _)⟩
  · intro r r₂ str str₂ hget hget₂ hstr hstr₂ hperm
    rw [names_of_storeGet_some hget, hstr, names_of_storeGet_some hget₂, hstr₂]
    simp only [Option.getD_some]
    by_cases h1 : str = ""
    · subst h1
      rw [pySplit_empty] at hperm
      have h2 : pySplit '|' str₂ = [""] :=
        List.perm_singleton.mp hperm.symm
      have : str₂ = "" := pySplit_eq_singleton_empty h2
      subst this
      simp
    · have h2 : ¬ str₂ = "" := by
        intro hcontra
        subst hcontra
        rw [pySplit_empty] at hperm
        exact h1 (pySplit_eq_singleton_empty (List.perm_singleton.mp hperm))
      rw [if_neg h1, if_neg h2]
      exact pySorted_eq_of_perm hperm

/-- Witness for C4 at concrete stores: the sentinel holding `"b|a"` lists the
same as the sentinel holding `"a|b"`, sorted. -/
theorem claim_C4_listNames_witness :
    List.Perm (get_all_document_names [indexRecord "b|a"]) (pySplit '|' "b|a") ∧
    List.Sorted (fun a b : String => a ≤ b)
      (get_all_document_names [indexRecord "b|a"]) ∧
    get_all_document_names [indexRecord "b|a"]
      = get_all_document_names [indexRecord "a|b"] := by
  refine ⟨?_, ?_, ?_⟩
  · exact ((claim_C4_listNames [indexRecord "b|a"] [indexRecord "a|b"]).2.2.1
      (indexRecord "b|a") "b|a" rfl rfl (by decide)).1
  · exact ((claim_C4_listNames [indexRecord "b|a"] [indexRecord "a|b"]).2.2.1
      (indexRecord "b|a") "b|a" rfl rfl (by decide)).2
  · exact (claim_C4_listNames [indexRecord "b|a"] [indexRecord "a|b"]).2.2.2
      (indexRecord "b|a") (indexRecord "a|b") "b|a" "a|b" rfl rfl rfl rfl
      (by decide)

/-- **C5**: deleting a name that is not in the DocumentIndex raises the 404
not-found error before any store mutation: the store is returned exactly as it
was, no chunk is deleted and the index record is not rewritten. -/
theorem claim_C5_delete_not_found (s : Store) (filename : String)
    (h : ¬ filename ∈ get_all_document_names s) :
    delete_document_by_name s filename = .error (404, s) := by
  unfold delete_document_by_name
  rw [if_neg h]

/-- Witness for C5: deleting `"missing.txt"` from a store holding only
`"a.txt"` errors with 404 and the untouched store. -/
theorem claim_C5_delete_not_found_witness :
    ¬ "missing.txt" ∈ get_all_document_names [indexRecord "a.txt"] ∧
    delete_document_by_name [indexRecord "a.txt"] "missing.txt"
      = .error (404, [indexRecord "a.txt"]) :=
  ⟨by decide, claim_C5_delete_not_found [indexRecord "a.txt"] "missing.txt" (by decide)⟩

/-- **C6 (counterexample)**: as stated over all states the claim fails.  In
the store whose index serialization is `"a|a"` (reachable by ingesting two
files named `a` in one call), the second `removeName "a"` finds the name still
present, writes again, and leaves a state different from the one after the
first call. -/
theorem claim_C6_cex :
    ¬ removeName (removeName [indexRecord "a|a"] "a") "a"
        = removeName [indexRecord "a|a"] "a" := by decide

/-- **C6 (amended)**: on any store whose index holds no duplicate name (as is
the case whenever no single ingestion call repeated a filename), `removeName`
is idempotent: after one call the name is absent, so the second call performs
no write, does not error, and returns the state unchanged. -/
theorem claim_C6_removeName_idempotent {s : Store} {filename : String}
    (hnd : (get_all_document_names s).Nodup)
    (hv : ∀ n ∈ get_all_document_names s, validName n) :
    ¬ filename ∈ get_all_document_names (removeName s filename) ∧
    removeName (removeName s filename) filename = removeName s filename := by
  have h1 : get_all_document_names (removeName s filename)
      = pySorted ((get_all_document_names s).erase filename) :=
    names_removeName hv
  have h2 : ¬ filename ∈ get_all_document_names (removeName s filename) := by
    rw [h1]
    intro hmem
    exact hnd.not_mem_erase ((pySorted_perm _).mem_iff.mp hmem)
  exact ⟨h2, removeName_of_not_mem h2⟩

/-- Witness for the amended C6 on a concrete duplicate-free store. -/
theorem claim_C6_removeName_idempotent_witness :
    ¬ "a" ∈ get_all_document_names (removeName [indexRecord "a|b"] "a") ∧
    removeName (removeName [indexRecord "a|b"] "a") "a"
      = removeName [indexRecord "a|b"] "a" :=
  claim_C6_removeName_idempotent (by decide) (by decide)

/-! ### Sequences of index operations (claim C3) -/

/-- One index-level operation of the DocumentIndex interface: an `addNames`
call (`_update_document_index`) or a `removeName` call (the index-update block
of `delete_document_by_name`). -/
inductive IndexOp where
  | add (names : List String)
  | remove (name : String)

def applyIndexOp (s : Store) : IndexOp → Store
  | .add names => update_document_index s names
  | .remove name => removeName s name

/-- Applying a sequence of index operations left to right. -/
def applyIndexOps (s : Store) (ops : List IndexOp) : Store :=
  ops.foldl applyIndexOp s

/-- The name set the spec ascribes to a sequence of operations: union for an
`addNames`, difference for a `removeName`. -/
def specIndexStep (S : Finset String) : IndexOp → Finset String
  | .add names => S ∪ names.toFinset
  | .remove name => S.erase name

def specIndexSet (S : Finset String) (ops : List IndexOp) : Finset String :=
  ops.foldl specIndexStep S

/-- The side conditions under which the serialized-set representation is
faithful: every added name is representable, and no single `addNames` call
repeats a name (the repetition case is the subject of the C3
counterexample). -/
def opValid : IndexOp → Prop
  | .add names => (∀ n ∈ names, validName n) ∧ names.Nodup
  | .remove _ => True

instance (op : IndexOp) : Decidable (opValid op) := by
  cases op <;> unfold opValid <;> infer_instance

/-- The invariant the index state maintains: the listed names are duplicate
free and representable. -/
def IndexInv (s : Store) : Prop :=
  (get_all_document_names s).Nodup ∧
  (∀ n ∈ get_all_document_names s, validName n)

theorem indexInv_empty : IndexInv [] := by
  constructor <;> simp [get_all_document_names, storeGet]

theorem pySorted_nodup {l : List String} (h : l.Nodup) : (pySorted l).Nodup :=
  (pySorted_perm l).nodup_iff.mpr h

theorem pySorted_toFinset (l : List String) : (pySorted l).toFinset = l.toFinset :=
  perm_toFinset_eq (pySorted_perm l)

theorem step_add {s : Store} {names : List String} (hinv : IndexInv s)
    (hv : ∀ n ∈ names, validName n) (hnd : names.Nodup) :
    IndexInv (update_document_index s names) ∧
    (get_all_document_names (update_document_index s names)).toFinset
      = (get_all_document_names s).toFinset ∪ names.toFinset := by
  obtain ⟨hndcur, hvcur⟩ := hinv
  have hnames := names_update_document_index hvcur hv
  set cur := get_all_document_names s with hcur
  set tn := names.filter (fun f => ¬ f ∈ cur) with htn
  have hvl : ∀ n ∈ cur ++ tn, validName n := by
    intro n hn
    rcases List.mem_append.mp hn with h1 | h2
    · exact hvcur n h1
    · exact hv n (List.mem_of_mem_filter h2)
  have hndl : (cur ++ tn).Nodup := by
    refine List.Nodup.append hndcur (List.Nodup.filter _ hnd) ?_
    intro a hacur hatn
    have := List.of_mem_filter hatn
    simp only [decide_not, Bool.not_eq_true', decide_eq_false_iff_not] at this
    exact this hacur
  constructor
  · constructor
    · rw [hnames]
      exact pySorted_nodup hndl
    · intro n hn
      rw [hnames] at hn
      exact hvl n ((pySorted_perm _).mem_iff.mp hn)
  · rw [hnames, pySorted_toFinset]
    ext a
    simp only [List.toFinset_append, Finset.mem_union, List.mem_toFinset, htn,
      List.mem_filter, decide_not, Bool.not_eq_true', decide_eq_false_iff_not]
    constructor
    · rintro (h1 | h2)
      · exact Or.inl h1
      · exact Or.inr h2.1
    · rintro (h1 | h2)
      · exact Or.inl h1
      · by_cases hc : a ∈ cur
        · exact Or.inl hc
        · exact Or.inr ⟨h2, hc⟩

theorem step_remove {s : Store} {name : String} (hinv : IndexInv s) :
    IndexInv (removeName s name) ∧
    (get_all_document_names (removeName s name)).toFinset
      = (get_all_document_names s).toFinset.erase name := by
  obtain ⟨hndcur, hvcur⟩ := hinv
  have hnames := @names_removeName s name hvcur
  constructor
  · constructor
    · rw [hnames]
      exact pySorted_nodup (hndcur.erase name)
    · intro n hn
      rw [hnames] at hn
      exact hvcur n
        (List.mem_of_mem_erase ((pySorted_perm _).mem_iff.mp hn))
  · rw [hnames, pySorted_toFinset]
    ext a
    simp only [List.mem_toFinset, Finset.mem_erase, hndcur.mem_erase_iff]

theorem applyIndexOps_spec {ops : List IndexOp} :
    ∀ {s : Store}, IndexInv s → (∀ op ∈ ops, opValid op) →
    IndexInv (applyIndexOps s ops) ∧
    (get_all_document_names (applyIndexOps s ops)).toFinset
      = specIndexSet (get_all_document_names s).toFinset ops := by
  induction ops with
  | nil => intro s hinv _; exact ⟨hinv, rfl⟩
  | cons op ops ih =>
    intro s hinv hops
    have hop : opValid op := hops op (by simp)
    have hrest : ∀ o ∈ ops, opValid o := fun o ho => hops o (by simp [ho])
    have hstep : IndexInv (applyIndexOp s op) ∧
        (get_all_document_names (applyIndexOp s op)).toFinset
          = specIndexStep (get_all_document_names s).toFinset op := by
      cases op with
      | add names => exact step_add hinv hop.1 hop.2
      | remove name => exact step_remove hinv
    have hih := ih hstep.1 hrest
    refine ⟨hih.1, ?_⟩
    show (get_all_document_names (applyIndexOps (applyIndexOp s op) ops)).toFinset = _
    rw [hih.2, hstep.2]
    rfl

theorem sorted_nodup_eq_finset_sort {l : List String}
    (hnd : l.Nodup) (hs : List.Sorted (fun a b => pyLe a b = true) l) :
    l = Finset.sort (fun a b => pyLe a b = true) l.toFinset := by
  apply List.eq_of_perm_of_sorted ?_ hs (Finset.sort_sorted _ _)
  apply List.perm_of_nodup_nodup_toFinset_eq hnd (Finset.sort_nodup _ _)
  rw [Finset.sort_toFinset]

/-- **C3 (counterexample)**: an `addNames` call that repeats a fresh name
within one call stores the name twice (the filter against the current set does
not deduplicate the argument), so `listNames` returns a duplicate entry,
contradicting the claimed set semantics. -/
theorem claim_C3_cex :
    get_all_document_names (applyIndexOps [] [IndexOp.add ["a", "a"]])
        = ["a", "a"] ∧
    ¬ (get_all_document_names (applyIndexOps [] [IndexOp.add ["a", "a"]])).Nodup := by
  constructor
  · rfl
  · decide

/-- **C3 (amended)**: for every interleaving of `addNames` and `removeName`
calls in which each `addNames` argument list is duplicate free (arguments may
still overlap previous calls arbitrarily) and every name is nonempty and
delimiter free, `listNames` afterward returns exactly the fold of set union
and set difference over the history, sorted and without duplicates; moreover
an `addNames` call all of whose names are already present writes nothing and
leaves the store untouched. -/
theorem claim_C3_set_semantics (ops : List IndexOp)
    (hops : ∀ op ∈ ops, opValid op) :
    get_all_document_names (applyIndexOps [] ops)
      = Finset.sort (fun a b => pyLe a b = true) (specIndexSet ∅ ops) ∧
    (∀ (s : Store) (new_filenames : List String),
      (∀ f ∈ new_filenames, f ∈ get_all_document_names s) →
      update_document_index s new_filenames = s) := by
  constructor
  · have hempty : get_all_document_names [] = [] := by
      simp [get_all_document_names, storeGet]
    have h := applyIndexOps_spec indexInv_empty hops
    have hfin : (get_all_document_names (applyIndexOps [] ops)).toFinset
        = specIndexSet ∅ ops := by
      rw [h.2, hempty]
      rfl
    rw [← hfin]
    exact sorted_nodup_eq_finset_sort h.1.1 (names_sorted _)
  · intro s new_filenames hall
    simp only [update_document_index]
    rw [if_pos]
    rw [List.filter_eq_nil_iff]
    intro f hf
    simpa using hall f hf

/-- Witness for the amended C3 on a concrete history: add `b`, add `a` and
`b` again, remove `b`; the listing is exactly `["a"]`. -/
theorem claim_C3_set_semantics_witness :
    get_all_document_names
        (applyIndexOps [] [IndexOp.add ["b"], IndexOp.add ["a", "b"],
          IndexOp.remove "b"])
      = Finset.sort (fun a b => pyLe a b = true)
          (specIndexSet ∅ [IndexOp.add ["b"], IndexOp.add ["a", "b"],
            IndexOp.remove "b"]) ∧
    update_document_index (applyIndexOps [] [IndexOp.add ["a"]]) ["a"]
      = applyIndexOps [] [IndexOp.add ["a"]] := by
  constructor
  · exact (claim_C3_set_semantics _ (by decide)).1
  · exact (claim_C3_set_semantics [] (by simp)).2
      (applyIndexOps [] [IndexOp.add ["a"]]) ["a"] (by decide)

/-! ### The batch-write phase (claims C1 and C2) -/

theorem chunkRecords_append (ids : Nat → String) (now : String) :
    ∀ (l₁ l₂ : List Chunk) (n : Nat),
    chunkRecords ids now n (l₁ ++ l₂)
      = chunkRecords ids now n l₁ ++ chunkRecords ids now (n + l₁.length) l₂ := by
  intro l₁
  induction l₁ with
  | nil => intro l₂ n; simp [chunkRecords]
  | cons c cs ih =>
    intro l₂ n
    simp only [List.cons_append, chunkRecords, List.length_cons]
    rw [List.append_eq, ih l₂ (n + 1)]
    have harith : n + 1 + cs.length = n + (cs.length + 1) := by omega
    rw [harith]

theorem chunkRecords_mem_id {ids : Nat → String} {now : String} :
    ∀ {cs : List Chunk} {n : Nat} {r : Record},
    r ∈ chunkRecords ids now n cs → ∃ m, r.id = ids m := by
  intro cs
  induction cs with
  | nil => intro n r hr; simp [chunkRecords] at hr
  | cons c cs ih =>
    intro n r hr
    simp only [chunkRecords, List.mem_cons] at hr
    rcases hr with hr | hr
    · exact ⟨n, by rw [hr]; rfl⟩
    · exact ih hr

/-- A mid-run batch-write failure: if the first failing batch is the `k`-th
one, the loop raises with exactly the first `k` batches appended to the store
and the remaining batches unattempted. -/
theorem writeBatches_error_at (ids : Nat → String) (now : String)
    (wf : Nat → Bool) :
    ∀ (batches : List (List Chunk)) (s : Store) (i n k : Nat),
    k < batches.length → wf (i + k) = true → (∀ j < k, wf (i + j) = false) →
    writeBatches ids now wf s batches i n
      = .error (s ++ chunkRecords ids now n ((batches.take k).flatten)) := by
  intro batches
  induction batches with
  | nil =>
    intro s i n k hk
    simp at hk
  | cons b bs ih =>
    intro s i n k hk hfail hmin
    cases k with
    | zero =>
      have hwfi : wf i = true := by simpa using hfail
      simp [writeBatches, hwfi, chunkRecords]
    | succ k' =>
      have hwfi : wf i = false := by
        have h0 := hmin 0 (Nat.succ_pos k')
        simpa using h0
      simp only [writeBatches, hwfi, Bool.false_eq_true, if_false]
      rw [ih (s ++ chunkRecords ids now n b) (i + 1) (n + b.length) k'
        (by simpa using Nat.lt_of_succ_lt_succ hk)
        (by rw [show i + 1 + k' = i + (k' + 1) by omega]; exact hfail)
        (fun j hj => by
          rw [show i + 1 + j = i + (j + 1) by omega]
          exact hmin (j + 1) (Nat.succ_lt_succ hj))]
      rw [List.take_succ_cons, List.flatten_cons, chunkRecords_append,
        List.append_assoc]

/-- A run in which no batch write fails appends every chunk record and
returns successfully. -/
theorem writeBatches_all_ok (ids : Nat → String) (now : String)
    (wf : Nat → Bool) :
    ∀ (batches : List (List Chunk)) (s : Store) (i n : Nat),
    (∀ j, wf j = false) →
    writeBatches ids now wf s batches i n
      = .ok (s ++ chunkRecords ids now n batches.flatten) := by
  intro batches
  induction batches with
  | nil => intro s i n _; simp [writeBatches, chunkRecords]
  | cons b bs ih =>
    intro s i n hok
    simp only [writeBatches, hok i, Bool.false_eq_true, if_false]
    rw [ih (s ++ chunkRecords ids now n b) (i + 1) (n + b.length) hok]
    rw [List.flatten_cons, chunkRecords_append, List.append_assoc]

/-- **C1**: in an ingestion call that produced at least one chunk, if the
`k`-th chunk-batch write is the first to failics, the call aborts with the 500
error, the store holds exactly the batches before the failing one (no later
batch is attempted), and the DocumentIndex is untouched, so `listNames`
afterward returns exactly what it returned before the call. -/
theorem claim_C1_batch_failure (s : Store) (files : List FileInput)
    (writeFails : Nat → Bool) (ids : Nat → String) (now : String) (k : Nat)
    (hids : ∀ m, ¬ ids m = DOCUMENT_INDEX_ID)
    (hchunks : ¬ (perFilePhase files).1 = [])
    (hk : k < (mkBatches (perFilePhase files).1).length)
    (hfail : writeFails k = true)
    (hmin : ∀ j < k, writeFails j = false) :
    process_and_store_files s files writeFails ids now
      = .error (500, s ++ chunkRecords ids now 0
          (((mkBatches (perFilePhase files).1).take k).flatten)) ∧
    get_all_document_names
        (s ++ chunkRecords ids now 0
          (((mkBatches (perFilePhase files).1).take k).flatten))
      = get_all_document_names s := by
  constructor
  · simp only [process_and_store_files, hchunks, if_false]
    rw [writeBatches_error_at ids now writeFails (mkBatches (perFilePhase files).1)
      s 0 0 k hk (by simpa using hfail) (fun j hj => by simpa using hmin j hj)]
  · apply names_append_of_ne
    intro r hr
    obtain ⟨m, hm⟩ := chunkRecords_mem_id hr
    rw [hm]
    exact hids m

/-- Witness for C1: one file producing one chunk, with the very first batch
write failing; nothing is stored and the listing is unchanged (empty). -/
theorem claim_C1_batch_failure_witness :
    process_and_store_files [] [⟨"a.txt", Except.ok ["c1"]⟩]
        (fun i => i == 0) (fun _ => "chunk-id") "t0"
      = .error (500, [] ++ chunkRecords (fun _ => "chunk-id") "t0" 0
          (((mkBatches (perFilePhase [⟨"a.txt", Except.ok ["c1"]⟩]).1).take 0).flatten)) ∧
    get_all_document_names
        ([] ++ chunkRecords (fun _ => "chunk-id") "t0" 0
          (((mkBatches (perFilePhase [⟨"a.txt", Except.ok ["c1"]⟩]).1).take 0).flatten))
      = get_all_document_names [] :=
  claim_C1_batch_failure [] [⟨"a.txt", Except.ok ["c1"]⟩]
    (fun i => i == 0) (fun _ => "chunk-id") "t0" 0
    (fun _ => (by decide : ¬ "chunk-id" = DOCUMENT_INDEX_ID))
    (by decide) (by decide) (by decide)
    (fun j hj => absurd hj (Nat.not_lt_zero j))

/-! ### The full ingestion/deletion history (claim C2) -/

theorem mkBatchesFuel_flatten :
    ∀ (fuel : Nat) (l : List Chunk), l.length ≤ fuel →
    (mkBatchesFuel fuel l).flatten = l := by
  intro fuel
  induction fuel with
  | zero =>
    intro l hl
    have : l = [] := List.length_eq_zero.mp (Nat.le_zero.mp hl)
    subst this
    rfl
  | succ fuel ih =>
    intro l hl
    cases l with
    | nil => rfl
    | cons c cs =>
      simp only [mkBatchesFuel, List.flatten_cons]
      rw [ih ((c :: cs).drop 10) (by
        rw [List.length_drop, List.length_cons]
        rw [List.length_cons] at hl
        omega)]
      exact List.take_append_drop 10 (c :: cs)

theorem mkBatches_flatten (l : List Chunk) : (mkBatches l).flatten = l :=
  mkBatchesFuel_flatten l.length l (Nat.le_refl _)

theorem perFilePhase_processed_ne_nil {files : List FileInput}
    (h : ¬ (perFilePhase files).1 = []) : ¬ (perFilePhase files).2.2 = [] := by
  induction files with
  | nil => exact absurd rfl h
  | cons f fs ih =>
    cases hres : f.chunkResult with
    | ok cs => simp [perFilePhase, hres]
    | error e =>
      simp only [perFilePhase, hres] at h ⊢
      exact ih h

theorem perFilePhase_processed_names {files : List FileInput} :
    ∀ n ∈ (perFilePhase files).2.2, ∃ f ∈ files, f.filename = n := by
  induction files with
  | nil => simp [perFilePhase]
  | cons f fs ih =>
    intro n hn
    cases hres : f.chunkResult with
    | ok cs =>
      simp only [perFilePhase, hres, List.mem_cons] at hn
      rcases hn with hn | hn
      · exact ⟨f, by simp, hn.symm⟩
      · obtain ⟨g, hg, hgn⟩ := ih n hn
        exact ⟨g, by simp [hg], hgn⟩
    | error e =>
      simp only [perFilePhase, hres] at hn
      obtain ⟨g, hg, hgn⟩ := ih n hn
      exact ⟨g, by simp [hg], hgn⟩

theorem chunkRecords_filterMap (ids : Nat → String) (now : String) :
    ∀ (cs : List Chunk) (n : Nat),
    (chunkRecords ids now n cs).filterMap
        (fun r => lookupMeta r.metadata "original_filename")
      = cs.map (fun c => c.original_filename) := by
  intro cs
  induction cs with
  | nil => intro n; rfl
  | cons c cs ih =>
    intro n
    simp only [chunkRecords, List.filterMap_cons, List.map_cons]
    rw [show lookupMeta (chunkRecord (ids n) c.original_filename now
        c.page_content).metadata "original_filename"
        = some c.original_filename from rfl]
    rw [ih (n + 1)]

/-- A file that chunked successfully produced at least one chunk (the side
condition under which zero-chunk registration cannot happen; its failure is
the C2 counterexample). -/
def fileOk (f : FileInput) : Prop :=
  match f.chunkResult with
  | .ok cs => ¬ cs = []
  | .error _ => True

instance (f : FileInput) : Decidable (fileOk f) := by
  unfold fileOk
  cases f.chunkResult <;> infer_instance

theorem perFilePhase_chunk_names {files : List FileInput}
    (hok : ∀ f ∈ files, fileOk f) :
    ((perFilePhase files).1.map (fun c => c.original_filename)).toFinset
      = (perFilePhase files).2.2.toFinset := by
  induction files with
  | nil => rfl
  | cons f fs ih =>
    have hoks : ∀ g ∈ fs, fileOk g := fun g hg => hok g (by simp [hg])
    have hf : fileOk f := hok f (by simp)
    cases hres : f.chunkResult with
    | ok cs =>
      have hcs : ¬ cs = [] := by
        unfold fileOk at hf
        rw [hres] at hf
        exact hf
      simp only [perFilePhase, hres]
      rw [List.map_append, List.toFinset_append, ih hoks]
      have hstamp : ((stampChunks f.filename cs).map
          (fun c => c.original_filename)).toFinset = {f.filename} := by
        unfold stampChunks
        rw [List.map_map]
        ext a
        simp only [List.mem_toFinset, List.mem_map, Function.comp,
          Finset.mem_singleton]
        constructor
        · rintro ⟨x, _, rfl⟩; rfl
        · intro ha
          cases cs with
          | nil => exact absurd rfl hcs
          | cons c cs => exact ⟨c, by simp, ha.symm⟩
      rw [hstamp]
      ext a
      simp only [Finset.mem_union, Finset.mem_singleton, List.toFinset_cons,
        Finset.mem_insert, List.mem_toFinset]
    | error e =>
      simp only [perFilePhase, hres]
      exact ih hoks

theorem sentinelClean_removeName {s : Store} (filename : String)
    (hclean : sentinelClean s) : sentinelClean (removeName s filename) := by
  simp only [removeName]
  by_cases hmem : filename ∈ get_all_document_names s
  · rw [if_pos hmem]
    exact sentinelClean_upsert_index _ hclean
  · rw [if_neg hmem]
    exact hclean

theorem chunkNames_removeName {s : Store} (filename : String)
    (hclean : sentinelClean s) :
    chunkNames (removeName s filename) = chunkNames s := by
  simp only [removeName]
  by_cases hmem : filename ∈ get_all_document_names s
  · rw [if_pos hmem]
    exact chunkNames_upsert_index hclean rfl rfl
  · rw [if_neg hmem]

theorem sentinelClean_update {s : Store} (new_filenames : List String)
    (hclean : sentinelClean s) :
    sentinelClean (update_document_index s new_filenames) := by
  simp only [update_document_index]
  by_cases hempty : new_filenames.filter
      (fun f => ¬ f ∈ get_all_document_names s) = []
  · rw [if_pos hempty]
    exact hclean
  · rw [if_neg hempty]
    exact sentinelClean_upsert_index _ hclean

theorem chunkNames_update {s : Store} (new_filenames : List String)
    (hclean : sentinelClean s) :
    chunkNames (update_document_index s new_filenames) = chunkNames s := by
  simp only [update_document_index]
  by_cases hempty : new_filenames.filter
      (fun f => ¬ f ∈ get_all_document_names s) = []
  · rw [if_pos hempty]
  · rw [if_neg hempty]
    exact chunkNames_upsert_index hclean rfl rfl

theorem indexInv_congr {s₁ s₂ : Store}
    (h : get_all_document_names s₂ = get_all_document_names s₁)
    (hinv : IndexInv s₁) : IndexInv s₂ := by
  obtain ⟨h1, h2⟩ := hinv
  exact ⟨h ▸ h1, h ▸ h2⟩

/-- The store state produced by a successful ingestion call that produced at
least one chunk: all chunk records appended, then one index update with the
accumulated processed filenames. -/
theorem process_ok_of_no_failure {s : Store} {files : List FileInput}
    {ids : Nat → String} {now : String}
    (hch : ¬ (perFilePhase files).1 = []) :
    process_and_store_files s files (fun _ => false) ids now
      = .ok (update_document_index
            (s ++ chunkRecords ids now 0 (perFilePhase files).1)
            (perFilePhase files).2.2,
          (perFilePhase files).1.length, (perFilePhase files).2.1) := by
  simp only [process_and_store_files, hch, if_false]
  rw [writeBatches_all_ok ids now (fun _ => false)
    (mkBatches (perFilePhase files).1) s 0 0 (fun _ => rfl)]
  rw [mkBatches_flatten]
  dsimp only
  rw [if_neg (perFilePhase_processed_ne_nil hch)]

/-- One service call of the document manager, as it affects the store
(`process_and_store_files` or `delete_document_by_name`). -/
inductive ManagerCall where
  | ingest (files : List FileInput) (ids : Nat → String) (now : String)
  | delete (filename : String)

/-- The store after one call.  Ingest steps run with no failing batch write
(the success assumption of the invariant); a delete of an unknown name raises
404 and leaves the store untouched. -/
def applyCall (s : Store) : ManagerCall → Store
  | .ingest files ids now =>
    match process_and_store_files s files (fun _ => false) ids now with
    | .ok (s1, _, _) => s1
    | .error (_, s1) => s1
  | .delete filename =>
    match delete_document_by_name s filename with
    | .ok s1 => s1
    | .error (_, s1) => s1

def applyCalls (s : Store) (calls : List ManagerCall) : Store :=
  calls.foldl applyCall s

/-- Side conditions on one call: ingested filenames are representable, the
generated chunk ids never collide with the sentinel id, no two files that
chunked successfully in the call share a name, and every successfully chunked
file produced at least one chunk. -/
def callValid : ManagerCall → Prop
  | .ingest files ids _ =>
    (∀ f ∈ files, validName f.filename) ∧
    (∀ m, ¬ ids m = DOCUMENT_INDEX_ID) ∧
    (perFilePhase files).2.2.Nodup ∧
    (∀ f ∈ files, fileOk f)
  | .delete _ => True

/-- The state invariant of the document-manager store: listed names are
duplicate free and representable, index records never carry chunk metadata,
and the listed name set coincides with the set of names owning at least one
chunk. -/
structure StoreInv (s : Store) : Prop where
  inv_index : IndexInv s
  inv_clean : sentinelClean s
  inv_names : (get_all_document_names s).toFinset = chunkNames s

theorem storeInv_empty : StoreInv [] := by
  refine ⟨indexInv_empty, ?_, ?_⟩
  · intro r hr
    simp at hr
  · simp [get_all_document_names, storeGet, chunkNames]

theorem step_ingest {s : Store} {files : List FileInput} {ids : Nat → String}
    {now : String} (hinv : StoreInv s)
    (hvalid : callValid (.ingest files ids now)) :
    StoreInv (applyCall s (.ingest files ids now)) := by
  obtain ⟨hvnames, hids, hnd, hok⟩ := hvalid
  by_cases hch : (perFilePhase files).1 = []
  · simp only [applyCall, process_and_store_files, hch, if_pos]
    exact hinv
  · simp only [applyCall, process_ok_of_no_failure hch]
    set s1 := s ++ chunkRecords ids now 0 (perFilePhase files).1 with hs1
    have hrecids : ∀ r ∈ chunkRecords ids now 0 (perFilePhase files).1,
        ¬ r.id = DOCUMENT_INDEX_ID := by
      intro r hr
      obtain ⟨m, hm⟩ := chunkRecords_mem_id hr
      rw [hm]
      exact hids m
    have hnames1 : get_all_document_names s1 = get_all_document_names s :=
      names_append_of_ne s hrecids
    have hclean1 : sentinelClean s1 :=
      sentinelClean_append hinv.inv_clean hrecids
    have hchunk1 : chunkNames s1
        = chunkNames s ∪ (perFilePhase files).2.2.toFinset := by
      rw [hs1, chunkNames_append]
      have : chunkNames (chunkRecords ids now 0 (perFilePhase files).1)
          = ((perFilePhase files).1.map (fun c => c.original_filename)).toFinset := by
        unfold chunkNames
        rw [chunkRecords_filterMap]
      rw [this, perFilePhase_chunk_names hok]
    have hinv1 : IndexInv s1 := indexInv_congr hnames1 hinv.inv_index
    have hvproc : ∀ n ∈ (perFilePhase files).2.2, validName n := by
      intro n hn
      obtain ⟨f, hf, hfn⟩ := perFilePhase_processed_names n hn
      exact hfn ▸ hvnames f hf
    have hstep := step_add hinv1 hvproc hnd
    refine ⟨hstep.1, sentinelClean_update _ hclean1, ?_⟩
    rw [hstep.2, chunkNames_update _ hclean1, hchunk1, hnames1,
      hinv.inv_names]

theorem step_delete {s : Store} {filename : String} (hinv : StoreInv s) :
    StoreInv (applyCall s (.delete filename)) := by
  simp only [applyCall, delete_document_by_name]
  by_cases hmem : filename ∈ get_all_document_names s
  · rw [if_pos hmem]
    set s1 := deleteWhere s "original_filename" filename with hs1
    have hnames1 : get_all_document_names s1 = get_all_document_names s :=
      names_deleteWhere filename hinv.inv_clean
    have hclean1 : sentinelClean s1 :=
      sentinelClean_deleteWhere _ _ hinv.inv_clean
    have hchunk1 : chunkNames s1 = (chunkNames s).erase filename :=
      chunkNames_deleteWhere s filename
    have hinv1 : IndexInv s1 := indexInv_congr hnames1 hinv.inv_index
    have hstep := @step_remove s1 filename hinv1
    refine ⟨hstep.1, sentinelClean_removeName _ hclean1, ?_⟩
    rw [hstep.2, chunkNames_removeName _ hclean1, hchunk1, hnames1,
      hinv.inv_names]
  · rw [if_neg hmem]
    exact hinv

theorem applyCalls_inv {calls : List ManagerCall} :
    ∀ {s : Store}, StoreInv s → (∀ c ∈ calls, callValid c) →
    StoreInv (applyCalls s calls) := by
  induction calls with
  | nil => intro s hinv _; exact hinv
  | cons c calls ih =>
    intro s hinv hcalls
    have hstep : StoreInv (applyCall s c) := by
      cases c with
      | ingest files ids now => exact step_ingest hinv (hcalls _ (by simp))
      | delete filename => exact step_delete hinv
    exact ih hstep (fun c hc => hcalls c (by simp [hc]))

/-- **C2 (counterexample)**: a successful ingestion call containing a file
that chunked successfully into zero chunks, next to a file that produced a
chunk, registers the zero-chunk file in the index even though no chunk in the
store carries its name — the set of listed names is strictly larger than the
set of names owning a chunk. -/
theorem claim_C2_cex :
    "b.txt" ∈ get_all_document_names
        (applyCall [] (.ingest
          [⟨"a.txt", Except.ok ["c1"]⟩, ⟨"b.txt", Except.ok []⟩]
          (fun _ => "chunk-id") "t0")) ∧
    ¬ "b.txt" ∈ chunkNames
        (applyCall [] (.ingest
          [⟨"a.txt", Except.ok ["c1"]⟩, ⟨"b.txt", Except.ok []⟩]
          (fun _ => "chunk-id") "t0")) := by
  constructor
  · decide
  · decide

/-- **C2 (amended)**: over any history of document-manager calls in which
every ingestion call succeeds (no batch write fails), every ingested filename
is nonempty and delimiter free, the successfully chunked filenames within one
call are pairwise distinct, every successfully chunked file yields at least
one chunk, and generated chunk ids never collide with the sentinel id: after
every call, the set of names stored in the DocumentIndex sentinel equals the
set of `original_filename` values that have at least one chunk in the
store. -/
theorem claim_C2_index_consistency (calls : List ManagerCall)
    (hvalid : ∀ c ∈ calls, callValid c) :
    (get_all_document_names (applyCalls [] calls)).toFinset
      = chunkNames (applyCalls [] calls) :=
  (applyCalls_inv storeInv_empty hvalid).inv_names

/-- Witness for the amended C2: ingest two files (one of them failing to
chunk), then delete one, and check the invariant on the resulting store. -/
theorem claim_C2_index_consistency_witness :
    (get_all_document_names (applyCalls []
        [ManagerCall.ingest
            [⟨"a.txt", Except.ok ["c1", "c2"]⟩, ⟨"bad.bin", Except.error ()⟩]
            (fun _ => "chunk-id") "t0",
          ManagerCall.delete "a.txt"])).toFinset
      = chunkNames (applyCalls []
        [ManagerCall.ingest
            [⟨"a.txt", Except.ok ["c1", "c2"]⟩, ⟨"bad.bin", Except.error ()⟩]
            (fun _ => "chunk-id") "t0",
          ManagerCall.delete "a.txt"]) :=
  claim_C2_index_consistency _ (by
    intro c hc
    simp only [List.mem_cons, List.not_mem_nil, or_false] at hc
    rcases hc with rfl | rfl
    · exact ⟨by decide, fun m => (by decide : ¬ "chunk-id" = DOCUMENT_INDEX_ID),
        by decide, by decide⟩
    · trivial)

/-! ### Claim C10: the sentinel survives deletion -/

deriving instance DecidableEq for Except

instance (s : Store) : Decidable (sentinelClean s) := by
  unfold sentinelClean
  infer_instance

theorem storeGet_deleteWhere {s : Store} (v : String)
    (hclean : sentinelClean s) :
    storeGet (deleteWhere s "original_filename" v) DOCUMENT_INDEX_ID
      = storeGet s DOCUMENT_INDEX_ID := by
  unfold deleteWhere
  cases hget : storeGet s DOCUMENT_INDEX_ID with
  | none =>
    unfold storeGet at hget ⊢
    rw [find?_filter_of_none hget]
  | some r =>
    have hmem : r ∈ s := List.mem_of_find?_eq_some hget
    have hid : r.id = DOCUMENT_INDEX_ID := by
      have hp := List.find?_some hget
      simpa using hp
    have hnone : lookupMeta r.metadata "original_filename" = none :=
      hclean r hmem hid
    unfold storeGet at hget ⊢
    rw [find?_filter_of_find? hget (by simp [hnone])]

/-- **C10**: a successful `deleteDocument` never removes the DocumentIndex
sentinel: the chunk-deletion predicate matches on the `original_filename`
metadata key, which no sentinel record carries, so the sentinel survives the
predicate delete unchanged; the subsequent index rewrite upserts the same
fixed sentinel id, whose record carries the fixed index page content and the
rewritten name list, so `listNames` remains well-defined afterwards. -/
theorem claim_C10_sentinel_preserved (s : Store) (filename : String)
    (s' : Store) (hclean : sentinelClean s)
    (hok : delete_document_by_name s filename = .ok s') :
    storeGet (deleteWhere s "original_filename" filename) DOCUMENT_INDEX_ID
      = storeGet s DOCUMENT_INDEX_ID ∧
    storeGet s' DOCUMENT_INDEX_ID
      = some (indexRecord
          (pyJoin '|' ((get_all_document_names s).erase filename))) ∧
    (∀ r, storeGet s' DOCUMENT_INDEX_ID = some r →
      r.id = DOCUMENT_INDEX_ID ∧
      r.page_content = "This is an index document. Do not delete.") := by
  unfold delete_document_by_name at hok
  by_cases hmem : filename ∈ get_all_document_names s
  · rw [if_pos hmem] at hok
    have hs' : s' = removeName (deleteWhere s "original_filename" filename)
        filename := (Except.ok.inj hok).symm
    have hnames1 : get_all_document_names
        (deleteWhere s "original_filename" filename)
        = get_all_document_names s := names_deleteWhere filename hclean
    refine ⟨storeGet_deleteWhere filename hclean, ?_, ?_⟩
    · rw [hs']
      simp only [removeName]
      rw [if_pos (hnames1 ▸ hmem), hnames1]
      have hself := storeGet_upsertById_self
        (deleteWhere s "original_filename" filename)
        (indexRecord (pyJoin '|' ((get_all_document_names s).erase filename)))
      rw [show (indexRecord (pyJoin '|'
        ((get_all_document_names s).erase filename))).id
        = DOCUMENT_INDEX_ID from rfl] at hself
      exact hself
    · intro r hr
      rw [hs'] at hr
      simp only [removeName] at hr
      rw [if_pos (hnames1 ▸ hmem), hnames1] at hr
      have hself := storeGet_upsertById_self
        (deleteWhere s "original_filename" filename)
        (indexRecord (pyJoin '|' ((get_all_document_names s).erase filename)))
      rw [show (indexRecord (pyJoin '|'
        ((get_all_document_names s).erase filename))).id
        = DOCUMENT_INDEX_ID from rfl] at hself
      rw [hself] at hr
      have hreq : r = indexRecord
          (pyJoin '|' ((get_all_document_names s).erase filename)) :=
        (Option.some.inj hr).symm
      rw [hreq]
      exact ⟨rfl, rfl⟩
  · rw [if_neg hmem] at hok
    cases hok

/-- Witness for C10: delete `"a.txt"` from a store with one index record and
one `a.txt` chunk; the sentinel survives, rewritten to hold only
`"b.txt"`. -/
theorem claim_C10_sentinel_preserved_witness :
    storeGet (deleteWhere [indexRecord "a.txt|b.txt",
        chunkRecord "chunk-id" "a.txt" "t0" "c1"] "original_filename" "a.txt")
        DOCUMENT_INDEX_ID
      = storeGet [indexRecord "a.txt|b.txt",
          chunkRecord "chunk-id" "a.txt" "t0" "c1"] DOCUMENT_INDEX_ID ∧
    storeGet [indexRecord "b.txt"] DOCUMENT_INDEX_ID
      = some (indexRecord (pyJoin '|'
          ((get_all_document_names [indexRecord "a.txt|b.txt",
            chunkRecord "chunk-id" "a.txt" "t0" "c1"]).erase "a.txt"))) ∧
    (∀ r, storeGet [indexRecord "b.txt"] DOCUMENT_INDEX_ID = some r →
      r.id = DOCUMENT_INDEX_ID ∧
      r.page_content = "This is an index document. Do not delete.") :=
  claim_C10_sentinel_preserved
    [indexRecord "a.txt|b.txt", chunkRecord "chunk-id" "a.txt" "t0" "c1"]
    "a.txt" [indexRecord "b.txt"] (by decide) (by decide)

/-! ### Evaluating the query workflow (claims C7, C8, C9) -/

theorem runGraph_useful {env : LLMEnv} {question request_id : String}
    {docs : List Doc} {cand : String}
    (hret : env.retrieve question = .ok docs)
    (hgen : env.complete (generatePrompt (contextOf docs) question) = .ok cand)
    (hjudge : env.judge (relevancePrompt (contextOf docs) question cand)
      = .ok true) :
    runGraph env question request_id
      = .ok { request_id := request_id, question := question,
              generation := some cand, documents := some docs } := by
  simp only [runGraph, retrieve_documents, generate_answer, check_relevance,
    rewrite_answer, hret, hgen, hjudge]
  rfl

theorem runGraph_not_useful {env : LLMEnv} {question request_id : String}
    {docs : List Doc} {cand rew : String}
    (hret : env.retrieve question = .ok docs)
    (hgen : env.complete (generatePrompt (contextOf docs) question) = .ok cand)
    (hjudge : env.judge (relevancePrompt (contextOf docs) question cand)
      = .ok false)
    (hrew : env.complete (rewritePrompt question) = .ok rew) :
    runGraph env question request_id
      = .ok { request_id := request_id, question := question,
              generation := some rew, documents := some docs } := by
  simp only [runGraph, retrieve_documents, generate_answer, check_relevance,
    rewrite_answer, hret, hgen, hjudge, hrew]
  rfl

theorem runGraph_retrieve_fails {env : LLMEnv} {question request_id : String}
    (hret : env.retrieve question = .error ()) :
    runGraph env question request_id = .error () := by
  simp only [runGraph, retrieve_documents, hret]

theorem runGraph_generate_fails {env : LLMEnv} {question request_id : String}
    {docs : List Doc} (hret : env.retrieve question = .ok docs)
    (hgen : env.complete (generatePrompt (contextOf docs) question)
      = .error ()) :
    runGraph env question request_id = .error () := by
  simp only [runGraph, retrieve_documents, generate_answer, hret, hgen]

theorem runGraph_judge_fails {env : LLMEnv} {question request_id : String}
    {docs : List Doc} {cand : String}
    (hret : env.retrieve question = .ok docs)
    (hgen : env.complete (generatePrompt (contextOf docs) question) = .ok cand)
    (hjudge : env.judge (relevancePrompt (contextOf docs) question cand)
      = .error ()) :
    runGraph env question request_id = .error () := by
  simp only [runGraph, retrieve_documents, generate_answer, check_relevance,
    hret, hgen, hjudge]

theorem runGraph_rewrite_fails {env : LLMEnv} {question request_id : String}
    {docs : List Doc} {cand : String}
    (hret : env.retrieve question = .ok docs)
    (hgen : env.complete (generatePrompt (contextOf docs) question) = .ok cand)
    (hjudge : env.judge (relevancePrompt (contextOf docs) question cand)
      = .ok false)
    (hrew : env.complete (rewritePrompt question) = .error ()) :
    runGraph env question request_id = .error () := by
  simp only [runGraph, retrieve_documents, generate_answer, check_relevance,
    rewrite_answer, hret, hgen, hjudge, hrew]
  rfl

/-- The fixed sentinel failure response of `get_rag_response`. -/
def sentinelResponse : RagResponse :=
  { answer := "Sorry, an internal error occurred. Please try again later."
    sources := []
    error := some "An internal error prevented the request from completing." }

/-- **C7**: after a successful Retrieve and Generate, the Verify decision
drives the workflow: if the judge returns not-grounded the workflow runs
Rewrite and ends, the final answer is the Rewrite-chain output (so it differs
from the Generate candidate whenever the rewrite output does), the prompt sent
to the rewrite chain discloses the insufficient-context fallback, and the
returned sources are still built from the Retrieve-stage chunks; if the judge
returns grounded, the Generate candidate is final. -/
theorem claim_C7_verify_branch (env : LLMEnv)
    (question request_id : String) (docs : List Doc) (cand : String)
    (verdict : Bool)
    (hret : env.retrieve question = .ok docs)
    (hgen : env.complete (generatePrompt (contextOf docs) question) = .ok cand)
    (hjudge : env.judge (relevancePrompt (contextOf docs) question cand)
      = .ok verdict) :
    (verdict = false → ∀ rew, env.complete (rewritePrompt question) = .ok rew →
      (get_rag_response env question request_id).answer = rew ∧
      (get_rag_response env question request_id).sources = docs.map mkSource ∧
      (¬ rew = cand → ¬ (get_rag_response env question request_id).answer = cand) ∧
      (∃ pre post, (rewritePrompt question).system
        = pre ++ "sufficient information was not found in the provided documents"
            ++ post)) ∧
    (verdict = true →
      (get_rag_response env question request_id).answer = cand ∧
      (get_rag_response env question request_id).sources = docs.map mkSource) := by
  constructor
  · intro hv rew hrew
    subst hv
    have hrun := @runGraph_not_useful env question request_id docs cand rew hret hgen hjudge hrew
    simp only [get_rag_response, hrun]
    refine ⟨rfl, rfl, ?_, ?_⟩
    · intro hne
      simpa using hne
    · exact ⟨"You are a helpful assistant. Answer the user's question. Inform them that ",
        " to give a precise answer, but you will attempt to answer based on your general knowledge.",
        rfl⟩
  · intro hv
    subst hv
    have hrun := @runGraph_useful env question request_id docs cand hret hgen hjudge
    simp only [get_rag_response, hrun]
    exact ⟨rfl, rfl⟩

set_option maxRecDepth 4000 in
/-- Witness for C7 at a concrete environment whose judge rejects the
candidate: the answer is the rewrite output, not the candidate, and the
sources reflect the retrieved chunk. -/
theorem claim_C7_verify_branch_witness :
    (get_rag_response
        { retrieve := fun _ => .ok [⟨"ctx", some "f.txt"⟩]
          complete := fun p =>
            .ok (if p.system = (rewritePrompt "q").system then "rewritten" else "cand")
          judge := fun _ => .ok false }
        "q" "rid").answer = "rewritten" ∧
    (get_rag_response
        { retrieve := fun _ => .ok [⟨"ctx", some "f.txt"⟩]
          complete := fun p =>
            .ok (if p.system = (rewritePrompt "q").system then "rewritten" else "cand")
          judge := fun _ => .ok false }
        "q" "rid").sources = [⟨"ctx", some "f.txt"⟩].map mkSource ∧
    ¬ (get_rag_response
        { retrieve := fun _ => .ok [⟨"ctx", some "f.txt"⟩]
          complete := fun p =>
            .ok (if p.system = (rewritePrompt "q").system then "rewritten" else "cand")
          judge := fun _ => .ok false }
        "q" "rid").answer = "cand" := by
  have h := (claim_C7_verify_branch
    { retrieve := fun _ => .ok [⟨"ctx", some "f.txt"⟩]
      complete := fun p =>
        .ok (if p.system = (rewritePrompt "q").system then "rewritten" else "cand")
      judge := fun _ => .ok false }
    "q" "rid" [⟨"ctx", some "f.txt"⟩] "cand" false
    rfl (by decide) rfl).1 rfl "rewritten" (by decide)
  exact ⟨h.1, h.2.1, h.2.2.1 (by decide)⟩

/-- **C8**: a failure of any oracle call (retrieval, generation, verification,
or the rewrite generation) propagates to the workflow boundary, where it is
caught and converted into the fixed sentinel failure response: the fixed
apology string as answer, no sources, and an error flag that successful
responses never carry. -/
theorem claim_C8_failure_sentinel (env : LLMEnv)
    (question request_id : String) :
    (runGraph env question request_id = .error () →
      get_rag_response env question request_id = sentinelResponse) ∧
    (env.retrieve question = .error () →
      runGraph env question request_id = .error ()) ∧
    (∀ docs, env.retrieve question = .ok docs →
      env.complete (generatePrompt (contextOf docs) question) = .error () →
      runGraph env question request_id = .error ()) ∧
    (∀ docs cand, env.retrieve question = .ok docs →
      env.complete (generatePrompt (contextOf docs) question) = .ok cand →
      env.judge (relevancePrompt (contextOf docs) question cand) = .error () →
      runGraph env question request_id = .error ()) ∧
    (∀ docs cand, env.retrieve question = .ok docs →
      env.complete (generatePrompt (contextOf docs) question) = .ok cand →
      env.judge (relevancePrompt (contextOf docs) question cand) = .ok false →
      env.complete (rewritePrompt question) = .error () →
      runGraph env question request_id = .error ()) ∧
    (∀ st, runGraph env question request_id = .ok st →
      (get_rag_response env question request_id).error = none) ∧
    sentinelResponse.answer
        = "Sorry, an internal error occurred. Please try again later." ∧
    sentinelResponse.sources = [] ∧
    ¬ sentinelResponse.error = none := by
  refine ⟨?_, ?_, ?_, ?_, ?_, ?_, rfl, rfl, by simp [sentinelResponse]⟩
  · intro hrun
    simp only [get_rag_response, hrun]
    rfl
  · exact runGraph_retrieve_fails
  · intro docs hret hgen
    exact runGraph_generate_fails hret hgen
  · intro docs cand hret hgen hjudge
    exact runGraph_judge_fails hret hgen hjudge
  · intro docs cand hret hgen hjudge hrew
    exact runGraph_rewrite_fails hret hgen hjudge hrew
  · intro st hrun
    simp only [get_rag_response, hrun]

/-- Witness for C8: an environment in which every oracle call fails yields
exactly the sentinel response. -/
theorem claim_C8_failure_sentinel_witness :
    get_rag_response
        { retrieve := fun _ => .error (), complete := fun _ => .error ()
          judge := fun _ => .error () } "q" "rid"
      = sentinelResponse :=
  (claim_C8_failure_sentinel
    { retrieve := fun _ => .error (), complete := fun _ => .error ()
      judge := fun _ => .error () } "q" "rid").1
    ((claim_C8_failure_sentinel
      { retrieve := fun _ => .error (), complete := fun _ => .error ()
        judge := fun _ => .error () } "q" "rid").2.1 rfl)

/-- **C9 (counterexample)**: the claim calls each `contentSnippet` a
bounded-length prefix of the chunk's content, but the code appends the fixed
ellipsis marker `"..."` after the 200-character slice, so for a chunk whose
content is `"hi"` the snippet is `"hi..."`, which is not a prefix of
`"hi"`. -/
theorem claim_C9_cex :
    (get_rag_response
        { retrieve := fun _ => .ok [⟨"hi", some "f.txt"⟩]
          complete := fun _ => .ok "ans", judge := fun _ => .ok true }
        "q" "rid").sources
      = [⟨"f.txt", "hi..."⟩] ∧
    List.isPrefixOf ("hi..." : String).data ("hi" : String).data = false := by
  constructor
  · rfl
  · decide

/-- **C9 (amended)**: for every successful `answerQuestion` execution, the
returned sources correspond positionally one-to-one to the Retrieve-stage
chunks; each entry carries that chunk's `original_filename` metadata as
`filename` (defaulting to `"Unknown source"` when absent), and its
`contentSnippet` is the bounded 200-character prefix of that chunk's content
with the fixed ellipsis marker `"..."` appended. -/
theorem claim_C9_sources_positional (env : LLMEnv)
    (question request_id : String) (st : GraphState) (docs : List Doc)
    (hok : runGraph env question request_id = .ok st)
    (hdocs : st.documents = some docs) :
    (get_rag_response env question request_id).sources.length = docs.length ∧
    (∀ i : Nat, (get_rag_response env question request_id).sources[i]?
      = (docs[i]?).map mkSource) ∧
    (∀ d v, d.original_filename = some v → (mkSource d).filename = v) ∧
    (∀ d : Doc, (mkSource d).page_content_snippet
        = pySlice d.page_content 200 ++ "..." ∧
      ∃ rest, d.page_content.data = (pySlice d.page_content 200).data ++ rest) := by
  have hsources : (get_rag_response env question request_id).sources
      = docs.map mkSource := by
    simp only [get_rag_response, hok, hdocs]
    rfl
  refine ⟨?_, ?_, ?_, ?_⟩
  · rw [hsources, List.length_map]
  · intro i
    rw [hsources, List.getElem?_map]
  · intro d v hv
    simp [mkSource, hv]
  · intro d
    refine ⟨rfl, ⟨d.page_content.data.drop 200, ?_⟩⟩
    rw [show (pySlice d.page_content 200).data = d.page_content.data.take 200
      from rfl]
    rw [List.take_append_drop]

/-- Witness for the amended C9 on a concrete successful execution with two
retrieved chunks, one of them missing the filename metadata. -/
theorem claim_C9_sources_positional_witness :
    (get_rag_response
        { retrieve := fun _ => .ok [⟨"hi", some "f.txt"⟩, ⟨"there", none⟩]
          complete := fun _ => .ok "ans", judge := fun _ => .ok true }
        "q" "rid").sources.length
      = ([⟨"hi", some "f.txt"⟩, ⟨"there", none⟩] : List Doc).length ∧
    (∀ i : Nat, (get_rag_response
        { retrieve := fun _ => .ok [⟨"hi", some "f.txt"⟩, ⟨"there", none⟩]
          complete := fun _ => .ok "ans", judge := fun _ => .ok true }
        "q" "rid").sources[i]?
      = (([⟨"hi", some "f.txt"⟩, ⟨"there", none⟩] : List Doc)[i]?).map mkSource) ∧
    (∀ d v, d.original_filename = some v → (mkSource d).filename = v) ∧
    (∀ d : Doc, (mkSource d).page_content_snippet
        = pySlice d.page_content 200 ++ "..." ∧
      ∃ rest, d.page_content.data = (pySlice d.page_content 200).data ++ rest) :=
  claim_C9_sources_positional
    { retrieve := fun _ => .ok [⟨"hi", some "f.txt"⟩, ⟨"there", none⟩]
      complete := fun _ => .ok "ans", judge := fun _ => .ok true }
    "q" "rid"
    { request_id := "rid", question := "q", generation := some "ans",
      documents := some [⟨"hi", some "f.txt"⟩, ⟨"there", none⟩] }
    [⟨"hi", some "f.txt"⟩, ⟨"there", none⟩] rfl rfl

end RagFastApi
